import Mathlib

/-!
Verification of the Quirk amplitude-buffer compute engine (CircuitShaders).

The repository slice contains the kernels' test suite
(`src/test/circuit/CircuitShaders.test.js`) but not `CircuitShaders.js`
itself, so each kernel below is modelled from the specification's contract
and validated, input by input, against the concrete buffers the test suite
asserts.  Buffers are shallowly embedded as functions from a linear cell
index to a cell value; complex amplitudes are pairs over a commutative
ring; the 4-channel cells of the GPU textures are 4-tuples.
-/

namespace Quirk


/-- Bit `q` of the state index `i` (0 or 1). -/
def bitAt (q i : Nat) : Nat := i / 2 ^ q % 2

/-- Insert a bit with value `b` at position `q` of `p`: the bits of `p`
below `q` stay, the bits at and above `q` shift up one place. -/
def insertBitAt (q b p : Nat) : Nat :=
  2 ^ q * (2 * (p / 2 ^ q) + b) + p % 2 ^ q

/-- Delete the bit at position `q` of `i`: bits above `q` shift down. -/
def removeBitAt (q i : Nat) : Nat :=
  2 ^ q * (i / 2 ^ (q + 1)) + i % 2 ^ q

/-- Overwrite bit `q` of `i` with the value `b`. -/
def forceBit (q b i : Nat) : Nat := insertBitAt q b (removeBitAt q i)

/-- Flip bits `a` and `b` of `i` (for distinct `a`, `b`). -/
def flipBits (a b i : Nat) : Nat := i ^^^ 2 ^ a ^^^ 2 ^ b

/-- Complex multiplication on re/im pairs, as the shaders compute it
componentwise on `vec2` amplitudes. -/
def cmul {K : Type} [CommRing K] (w z : K × K) : K × K :=
  (w.1 * z.1 - w.2 * z.2, w.1 * z.2 + w.2 * z.1)

/-- Complex conjugation on a re/im pair. -/
def cconj {K : Type} [CommRing K] (z : K × K) : K × K := (z.1, -z.2)

/-- Modelled from the spec: `CircuitShaders.controlMask` (the shader source is
not in the sampled slice). Cell at logical index `i` is 1.0 iff
`(i & mask) == value`, modelled as a Boolean selector. -/
def controlMask (m v : Nat) : Nat → Bool := fun i => i &&& m == v

/-- Modelled from the spec: `CircuitShaders.classicalState` (the shader source
is not in the sampled slice). One-hot amplitude buffer: cell at the given
logical index is (1,0,0,0), all other cells are (0,0,0,0). -/
def classicalState {K : Type} [CommRing K] (s : Nat) : Nat → K × K × K × K :=
  fun j => if j = s then (1, 0, 0, 0) else (0, 0, 0, 0)

/-- Modelled from the spec: `CircuitShaders.qubitOperation` (the shader source
is not in the sampled slice). Applies the 2x2 complex matrix
`[[m00, m01], [m10, m11]]` to qubit `q`, conditioned on the control-mask
buffer, whose value is read at the pair member with bit `q` clear. -/
def qubitOperation {K : Type} [CommRing K] (amp : Nat → K × K)
    (m00 m01 m10 m11 : K × K) (q : Nat) (mask : Nat → Bool) : Nat → K × K :=
  fun i =>
    let i0 := forceBit q 0 i
    let i1 := forceBit q 1 i
    if mask i0 then
      if bitAt q i = 1 then cmul m10 (amp i0) + cmul m11 (amp i1)
      else cmul m00 (amp i0) + cmul m01 (amp i1)
    else amp i

/-- Modelled from the spec: `CircuitShaders.swap` (the shader source is not in
the sampled slice). Exchanges the contributions of qubits `a` and `b`,
conditioned on the control-mask buffer. Cells are moved whole. -/
def swap {α : Type} (buf : Nat → α) (a b : Nat) (mask : Nat → Bool) : Nat → α :=
  fun i =>
    if bitAt a i ≠ bitAt b i ∧ mask i then buf (flipBits a b i) else buf i

/-- Number of set bits among the low `n` bits of `m`. -/
def popcnt : Nat → Nat → Nat
  | 0, _ => 0
  | n + 1, m => m % 2 + popcnt n (m / 2)

/-- Source index selected by `controlSelect` for output index `j`: the bits
of `v` are inserted at the positions set in `m` and the bits of `j` fill the
remaining positions, in original bit order (`n` bounds the bit positions
processed). -/
def insertBits : Nat → Nat → Nat → Nat → Nat
  | 0, _, _, j => j
  | n + 1, m, v, j =>
    if m % 2 = 1 then v % 2 + 2 * insertBits n (m / 2) (v / 2) j
    else j % 2 + 2 * insertBits n (m / 2) (v / 2) (j / 2)

/-- Modelled from the spec: `CircuitShaders.controlSelect` (the shader source
is not in the sampled slice). Gathers the cells of an `n`-qubit source buffer
that satisfy the control specification `(m, v)` into a bit-compacted buffer. -/
def controlSelect {α : Type} (n m v : Nat) (src : Nat → α) : Nat → α :=
  fun j => src (insertBits n m v j)

/-- A 2D texture buffer: a grid extent and the cell at each linear index. -/
structure Buf (α : Type) where
  width : Nat
  height : Nat
  cell : Nat → α

/-- All cells of a buffer in linear reading order. -/
def readCells {α : Type} (b : Buf α) : List α :=
  (List.range (b.width * b.height)).map b.cell

/-- Modelled from the spec and the repository's tests:
`CircuitShaders.linearOverlay` (the shader source is not in the sampled
slice). Both buffers are treated as flat cell sequences and the offset `k`
counts single cells, as fixed by the concrete outputs asserted in
`src/test/circuit/CircuitShaders.test.js` (which splice a 2-wide foreground
into a 4-wide background at cell offsets 0, 1, 2, 4, 12 and 13). Output
cell `c` is foreground cell `c - k` when `k ≤ c < k +` (foreground cell
count), and background cell `c` otherwise; no shape check is performed. -/
def linearOverlay {α : Type} (k : Nat) (fore back : Buf α) : Buf α :=
  ⟨back.width, back.height, fun c =>
    if k ≤ c ∧ c - k < fore.width * fore.height then fore.cell (c - k)
    else back.cell c⟩

/-- Modelled from the spec and the repository's tests:
`CircuitShaders.squaredMagnitude` (the shader source is not in the sampled
slice). Each output cell's first channel is the dot product of the input
cell with itself over all four channels (per the test row (1,2,3,4) -> 30);
the remaining output channels are zero. -/
def squaredMagnitude {K : Type} [CommRing K] (buf : Nat → K × K × K × K) :
    Nat → K × K × K × K :=
  fun c =>
    let v := buf c
    (v.1 * v.1 + v.2.1 * v.2.1 + v.2.2.1 * v.2.2.1 + v.2.2.2 * v.2.2.2, 0, 0, 0)

/-- Modelled from the spec and the repository's tests: the partial density
record produced by `CircuitShaders.allQubitDensities` for qubit `q` and
setting `p` of the remaining bits. With `a0`, `a1` the amplitudes at the
state indices obtained by inserting bit 0 resp. 1 at position `q` of `p`,
the four packed reals are `(|a0|^2, Re(conj(a0)*a1), Im(conj(a0)*a1),
|a1|^2)` (sign convention fixed by the test vectors). -/
def densityPiece {K : Type} [CommRing K] (q p : Nat) (amp : Nat → K × K) :
    K × K × K × K :=
  let a0 := amp (insertBitAt q 0 p)
  let a1 := amp (insertBitAt q 1 p)
  ((cmul (cconj a0) a0).1, (cmul (cconj a0) a1).1,
   (cmul (cconj a0) a1).2, (cmul (cconj a1) a1).1)

/-- Modelled from the spec and the repository's tests:
`CircuitShaders.allQubitDensities` (the shader source is not in the sampled
slice). For an `n`-qubit buffer the output holds `n * 2^(n-1)` partial
density records, cell `p * n + q` being the record of qubit `q` for setting
`p` of the remaining `n-1` bits (layout fixed by the n=4 test vectors);
the per-qubit sums over `p` are performed by a later reduction pass. -/
def allQubitDensities {K : Type} [CommRing K] (n : Nat) (amp : Nat → K × K) :
    Nat → K × K × K × K :=
  fun c => densityPiece (c % n) (c / n) amp

/-- Per-qubit reduced density record: the componentwise sum over `p` of the
partial records `densityPiece q p` emitted by `allQubitDensities`. -/
def qubitDensity {K : Type} [CommRing K] (n q : Nat) (amp : Nat → K × K) :
    K × K × K × K :=
  (Finset.sum (Finset.range (2 ^ (n - 1))) (fun p => (densityPiece q p amp).1),
   Finset.sum (Finset.range (2 ^ (n - 1))) (fun p => (densityPiece q p amp).2.1),
   Finset.sum (Finset.range (2 ^ (n - 1))) (fun p => (densityPiece q p amp).2.2.1),
   Finset.sum (Finset.range (2 ^ (n - 1))) (fun p => (densityPiece q p amp).2.2.2))

/-- Partial-trace entry over state indices: the sum, over all `i` in
`[0, 2^n)` whose bit `q` equals `a`, of `conj(amp(i)) * amp(i with bit q
forced to b)`. -/
def densitySum {K : Type} [CommRing K] (n q a b : Nat) (amp : Nat → K × K) :
    K × K :=
  Finset.sum ((Finset.range (2 ^ n)).filter (fun i => bitAt q i = a))
    (fun i => cmul (cconj (amp i)) (amp (forceBit q b i)))

/-- Stated from the claim's words (for comparison only): the partial-trace
entry with the conjugation placed on the second factor,
`amp(i) * conj(amp(i with bit q forced to b))`. -/
def claimDensitySum {K : Type} [CommRing K] (n q a b : Nat) (amp : Nat → K × K) :
    K × K :=
  Finset.sum ((Finset.range (2 ^ n)).filter (fun i => bitAt q i = a))
    (fun i => cmul (amp i) (cconj (amp (forceBit q b i))))

/-- Stated from the claim's words (for comparison only): a squared-magnitude
kernel that squares only the two complex channels of each cell. -/
def claimSquaredMagnitude {K : Type} [CommRing K] (buf : Nat → K × K × K × K) :
    Nat → K × K × K × K :=
  fun c =>
    let v := buf c
    (v.1 * v.1 + v.2.1 * v.2.1, 0, 0, 0)

/-- The `n`-qubit state `(|0...0> + |1...1>)/sqrt 2`: amplitude `s` at the
all-zeros and all-ones indices, zero elsewhere. -/
def ghzAmp {K : Type} [CommRing K] (n : Nat) (s : K) : Nat → K × K :=
  fun i => if i = 0 ∨ i = 2 ^ n - 1 then (s, 0) else (0, 0)

/-- Reading a buffer of per-index cells back against a W x H grid, row by
row: the cell of grid coordinate (x, y) is the cell at linear index
`y * W + x`, exactly the addressing every kernel uses. -/
def readOutputs {α : Type} (f : Nat → α) (W H : Nat) : List α :=
  (List.range H).flatMap (fun y => (List.range W).map (fun x => f (y * W + x)))

/-- Buffer contents given by a list of cells (cells past the end default). -/
def ofList {α : Type} (l : List α) (d : α) : Nat → α := fun i => l.getD i d

/-- Amplitude fixture of the `qubitOperation` test. -/
def ampT : Nat → ℤ × ℤ :=
  ofList [(2,3),(4,5),(6,7),(8,9),(2,3),(5,7),(11,13),(17,19)] (0,0)

/-- Amplitude fixture of the `qubitOperation_flows` test. -/
def ampF : Nat → ℤ × ℤ := ofList [(1,2),(3,27)] (0,0)

/-- Cell fixture of the `swap` test. -/
def swapT : Nat → ℕ × ℕ × ℕ × ℕ :=
  ofList [(11,12,13,14),(21,22,23,24),(31,32,33,34),(41,42,43,44),
          (51,52,53,54),(61,62,63,64),(71,72,73,74),(81,82,83,84)] (0,0,0,0)

/-- The `Shaders.coords` fixture on a 4 x 4 texture: cell `c` is `(x, y)`. -/
def coords44 : Nat → ℕ × ℕ := fun c => (c % 4, c / 4)

/-- The `Shaders.coords` fixture on a 2 x 8 texture. -/
def coords28 : Nat → ℕ × ℕ := fun c => (c % 2, c / 2)

/-- Foreground fixture of the `linearOverlay` test: a 2 x 2 texture whose
flat float data is 900..915, i.e. cell `c` is `(900+4c, .., 903+4c)`. -/
def foreT : Buf (ℤ × ℤ × ℤ × ℤ) :=
  ⟨2, 2, fun c => (900 + 4*(c:ℤ), 901 + 4*(c:ℤ), 902 + 4*(c:ℤ), 903 + 4*(c:ℤ))⟩

/-- Background fixture of the `linearOverlay` test: a 4 x 4 texture whose
flat float data is 0, -1, .., -63. -/
def backT : Buf (ℤ × ℤ × ℤ × ℤ) :=
  ⟨4, 4, fun c => (-(4*(c:ℤ)), -(4*(c:ℤ))-1, -(4*(c:ℤ))-2, -(4*(c:ℤ))-3)⟩

/-- Input fixture of the `squaredMagnitude` test (its rational rows). -/
def sqT : Nat → ℚ × ℚ × ℚ × ℚ :=
  ofList [(2,3,0,0), (1/2,1/2,0,0), (1,2,3,4), (1/4,1/2,0,0),
          (3/5,4/5,0,0), (1,0,0,0)] (0,0,0,0)

/-- The 4-qubit one-hot |0000> fixture of the `allQubitDensities` test. -/
def zeroAmp16 : Nat → ℤ × ℤ := fun i => if i = 0 then (1, 0) else (0, 0)

/-- The amplitude fixture `0.4|0> + 0.6i|1>` of the `allQubitDensities`
test, whose asserted output is (0.16, 0, 0.24, 0.36). -/
def amp01 : Nat → ℚ × ℚ := ofList [(2/5, 0), (0, 3/5)] (0, 0)

/-- The 4-qubit product-state fixture (comment `0, 0+1, 0+i1, 1`) of the
`allQubitDensities` test. -/
def mixAmp16 : Nat → ℚ × ℚ := fun i =>
  if i = 8 ∨ i = 10 then (1/2, 0)
  else if i = 12 ∨ i = 14 then (0, 1/2)
  else (0, 0)

/-- A 2 x 1 foreground with the same width as `back22`, for probing
`linearOverlay` offset semantics at identical widths. -/
def fore21 : Buf (ℤ × ℤ × ℤ × ℤ) := ⟨2, 1, fun c => (100 + (c:ℤ), 0, 0, 0)⟩

/-- A 2 x 2 background with the same width as `fore21`. -/
def back22 : Buf (ℤ × ℤ × ℤ × ℤ) := ⟨2, 2, fun c => (200 + (c:ℤ), 0, 0, 0)⟩

theorem insertBitAt_div_pow (q b p : Nat) (hb : b < 2) :
    insertBitAt q b p / 2 ^ q = 2 * (p / 2 ^ q) + b := by
  unfold insertBitAt
  rw [Nat.mul_add_div (Nat.pos_pow_of_pos q (by omega)),
    Nat.div_eq_of_lt (Nat.mod_lt _ (Nat.pos_pow_of_pos q (by omega)))]
  omega

theorem insertBitAt_mod_pow (q b p : Nat) :
    insertBitAt q b p % 2 ^ q = p % 2 ^ q := by
  unfold insertBitAt
  rw [Nat.mul_add_mod, Nat.mod_mod_of_dvd p dvd_rfl]

theorem bitAt_insertBitAt (q b p : Nat) (hb : b < 2) :
    bitAt q (insertBitAt q b p) = b := by
  unfold bitAt
  rw [insertBitAt_div_pow q b p hb]
  omega

theorem insertBitAt_div_pow_succ (q b p : Nat) (hb : b < 2) :
    insertBitAt q b p / 2 ^ (q + 1) = p / 2 ^ q := by
  have h1 : insertBitAt q b p = 2 ^ (q + 1) * (p / 2 ^ q) + (2 ^ q * b + p % 2 ^ q) := by
    unfold insertBitAt; rw [pow_succ]; ring
  have h2 : 2 ^ q * b + p % 2 ^ q < 2 ^ (q + 1) := by
    have ha := Nat.mod_lt p (y := 2 ^ q) (Nat.pos_pow_of_pos q (by omega))
    have hc : 2 ^ q * b ≤ 2 ^ q * 1 := Nat.mul_le_mul_left _ (by omega)
    rw [pow_succ]; omega
  rw [h1, Nat.mul_add_div (Nat.pos_pow_of_pos (q + 1) (by omega)),
    Nat.div_eq_of_lt h2]
  omega

theorem removeBitAt_insertBitAt (q b p : Nat) (hb : b < 2) :
    removeBitAt q (insertBitAt q b p) = p := by
  unfold removeBitAt
  rw [insertBitAt_div_pow_succ q b p hb, insertBitAt_mod_pow]
  exact Nat.div_add_mod p (2 ^ q)

/-- Decomposition of a number around the bit at position `q`. -/
theorem bit_decomp (q i : Nat) :
    2 ^ (q + 1) * (i / 2 ^ (q + 1)) + 2 ^ q * bitAt q i + i % 2 ^ q = i := by
  unfold bitAt
  have h1 : 2 ^ q * (i / 2 ^ q) + i % 2 ^ q = i := Nat.div_add_mod i (2 ^ q)
  have h2 : 2 * (i / 2 ^ q / 2) + i / 2 ^ q % 2 = i / 2 ^ q := Nat.div_add_mod _ 2
  have h3 : i / 2 ^ q / 2 = i / 2 ^ (q + 1) := by
    rw [Nat.div_div_eq_div_mul, pow_succ]
  calc 2 ^ (q + 1) * (i / 2 ^ (q + 1)) + 2 ^ q * (i / 2 ^ q % 2) + i % 2 ^ q
      = 2 ^ q * (2 * (i / 2 ^ q / 2) + i / 2 ^ q % 2) + i % 2 ^ q := by
        rw [h3, pow_succ]; ring
    _ = i := by rw [h2, h1]

theorem insertBitAt_removeBitAt (q i : Nat) :
    insertBitAt q (bitAt q i) (removeBitAt q i) = i := by
  have hb : bitAt q i < 2 := Nat.mod_lt _ (by omega)
  have hdiv : removeBitAt q i / 2 ^ q = i / 2 ^ (q + 1) := by
    unfold removeBitAt
    rw [Nat.mul_add_div (Nat.pos_pow_of_pos q (by omega)),
      Nat.div_eq_of_lt (Nat.mod_lt _ (Nat.pos_pow_of_pos q (by omega))), Nat.add_zero]
  have hmod : removeBitAt q i % 2 ^ q = i % 2 ^ q := by
    unfold removeBitAt
    rw [Nat.mul_add_mod, Nat.mod_mod_of_dvd i dvd_rfl]
  unfold insertBitAt
  rw [hdiv, hmod]
  have := bit_decomp q i
  calc 2 ^ q * (2 * (i / 2 ^ (q + 1)) + bitAt q i) + i % 2 ^ q
      = 2 ^ (q + 1) * (i / 2 ^ (q + 1)) + 2 ^ q * bitAt q i + i % 2 ^ q := by
        rw [pow_succ]; ring
    _ = i := this

theorem forceBit_eq_insert_remove (q b i : Nat) :
    forceBit q b i = insertBitAt q b (removeBitAt q i) := rfl

theorem forceBit_of_bitAt (q i : Nat) : forceBit q (bitAt q i) i = i :=
  insertBitAt_removeBitAt q i

theorem forceBit_insertBitAt (q b c p : Nat) (hc : c < 2) :
    forceBit q b (insertBitAt q c p) = insertBitAt q b p := by
  unfold forceBit
  rw [removeBitAt_insertBitAt q c p hc]

theorem insertBitAt_lt (n q b p : Nat) (hq : q < n) (hb : b < 2)
    (hp : p < 2 ^ (n - 1)) : insertBitAt q b p < 2 ^ n := by
  have h1 : insertBitAt q b p = 2 ^ (q + 1) * (p / 2 ^ q) + (2 ^ q * b + p % 2 ^ q) := by
    unfold insertBitAt; rw [pow_succ]; ring
  have h2 : 2 ^ q * b + p % 2 ^ q < 2 ^ (q + 1) := by
    have ha := Nat.mod_lt p (y := 2 ^ q) (Nat.pos_pow_of_pos q (by omega))
    have hc : 2 ^ q * b ≤ 2 ^ q * 1 := Nat.mul_le_mul_left _ (by omega)
    rw [pow_succ]; omega
  have h3 : p / 2 ^ q < 2 ^ (n - 1 - q) := by
    rw [Nat.div_lt_iff_lt_mul (Nat.pos_pow_of_pos q (by omega)), ← pow_add]
    have : n - 1 - q + q = n - 1 := by omega
    rw [this]; exact hp
  have h4 : 2 ^ (q + 1) * (p / 2 ^ q + 1) ≤ 2 ^ (q + 1) * 2 ^ (n - 1 - q) :=
    Nat.mul_le_mul_left _ h3
  have h5 : 2 ^ (q + 1) * 2 ^ (n - 1 - q) = 2 ^ n := by
    rw [← pow_add]; congr 1; omega
  calc insertBitAt q b p < 2 ^ (q + 1) * (p / 2 ^ q) + 2 ^ (q + 1) := by omega
    _ = 2 ^ (q + 1) * (p / 2 ^ q + 1) := by ring
    _ ≤ 2 ^ n := h5 ▸ h4

theorem removeBitAt_lt (n q i : Nat) (hq : q < n) (hi : i < 2 ^ n) :
    removeBitAt q i < 2 ^ (n - 1) := by
  have h1 : i / 2 ^ (q + 1) < 2 ^ (n - 1 - q) := by
    rw [Nat.div_lt_iff_lt_mul (Nat.pos_pow_of_pos (q + 1) (by omega)), ← pow_add]
    have : n - 1 - q + (q + 1) = n := by omega
    rw [this]; exact hi
  have h2 : i % 2 ^ q < 2 ^ q := Nat.mod_lt _ (Nat.pos_pow_of_pos q (by omega))
  have h3 : 2 ^ q * (i / 2 ^ (q + 1) + 1) ≤ 2 ^ q * 2 ^ (n - 1 - q) :=
    Nat.mul_le_mul_left _ h1
  have h4 : 2 ^ q * 2 ^ (n - 1 - q) = 2 ^ (n - 1) := by
    rw [← pow_add]; congr 1; omega
  unfold removeBitAt
  calc 2 ^ q * (i / 2 ^ (q + 1)) + i % 2 ^ q
      < 2 ^ q * (i / 2 ^ (q + 1)) + 2 ^ q := by omega
    _ = 2 ^ q * (i / 2 ^ (q + 1) + 1) := by ring
    _ ≤ 2 ^ (n - 1) := h4 ▸ h3

theorem readOutputs_eq_range {α : Type} (f : Nat → α) (W : Nat) :
    ∀ H, readOutputs f W H = (List.range (W * H)).map f := by
  intro H
  induction H with
  | zero => simp [readOutputs]
  | succ h ih =>
    unfold readOutputs at ih ⊢
    rw [List.range_succ, List.flatMap_append, ih, Nat.mul_succ, List.range_add,
      List.map_append]
    congr 1
    simp [List.map_map, Function.comp_def, Nat.mul_comm, Nat.add_comm]

/-- Reshape invariance of the linear addressing: the cells read back under
any two grid factorizations of the same logical size coincide. -/
theorem readOutputs_reshape {α : Type} (f : Nat → α) (W H W2 H2 : Nat)
    (h : W * H = W2 * H2) : readOutputs f W H = readOutputs f W2 H2 := by
  rw [readOutputs_eq_range, readOutputs_eq_range, h]

theorem densitySum_eq_pieceSum {K : Type} [CommRing K] (n q a b : Nat)
    (hq : q < n) (ha : a < 2) (hb : b < 2) (amp : Nat → K × K) :
    densitySum n q a b amp =
      Finset.sum (Finset.range (2 ^ (n - 1)))
        (fun p => cmul (cconj (amp (insertBitAt q a p))) (amp (insertBitAt q b p))) := by
  unfold densitySum
  refine Finset.sum_nbij' (fun i => removeBitAt q i) (fun p => insertBitAt q a p)
    ?_ ?_ ?_ ?_ ?_
  · intro i hi
    rw [Finset.mem_filter, Finset.mem_range] at hi
    rw [Finset.mem_range]
    exact removeBitAt_lt n q i hq hi.1
  · intro p hp
    rw [Finset.mem_range] at hp
    rw [Finset.mem_filter, Finset.mem_range]
    exact ⟨insertBitAt_lt n q a p hq ha hp, bitAt_insertBitAt q a p ha⟩
  · intro i hi
    rw [Finset.mem_filter] at hi
    rw [← hi.2]
    exact insertBitAt_removeBitAt q i
  · intro p hp
    exact removeBitAt_insertBitAt q a p ha
  · intro i hi
    rw [Finset.mem_filter] at hi
    have h1 : insertBitAt q a (removeBitAt q i) = i := by
      rw [← hi.2]; exact insertBitAt_removeBitAt q i
    have h2 : forceBit q b i = insertBitAt q b (removeBitAt q i) := rfl
    rw [h1, h2]

/-- The four channels of `qubitDensity` are the partial-trace sums over state
indices, with the conjugation on the first factor. -/
theorem qubitDensity_eq_densitySum {K : Type} [CommRing K] (n q : Nat)
    (hq : q < n) (amp : Nat → K × K) :
    qubitDensity n q amp =
      ((densitySum n q 0 0 amp).1, (densitySum n q 0 1 amp).1,
       (densitySum n q 0 1 amp).2, (densitySum n q 1 1 amp).1) := by
  have e00 := densitySum_eq_pieceSum n q 0 0 hq (by omega) (by omega) amp
  have e01 := densitySum_eq_pieceSum n q 0 1 hq (by omega) (by omega) amp
  have e11 := densitySum_eq_pieceSum n q 1 1 hq (by omega) (by omega) amp
  have fst_sum : ∀ (s : Finset Nat) (g : Nat → K × K),
      (Finset.sum s g).1 = Finset.sum s (fun x => (g x).1) := by
    intro s g
    exact map_sum (AddMonoidHom.fst K K) g s
  have snd_sum : ∀ (s : Finset Nat) (g : Nat → K × K),
      (Finset.sum s g).2 = Finset.sum s (fun x => (g x).2) := by
    intro s g
    exact map_sum (AddMonoidHom.snd K K) g s
  unfold qubitDensity densityPiece
  rw [e00, e01, e11, fst_sum, fst_sum, snd_sum, fst_sum]

/-!
Model validation: each lemma below reproduces, cell for cell, one concrete
buffer asserted by `src/test/circuit/CircuitShaders.test.js`, pinning the
spec-modelled kernels to the repository's recorded behavior.
-/

theorem classicalState_matches_suite :
    readOutputs (classicalState (K := ℤ) 5) 2 4 =
      [(0,0,0,0),(0,0,0,0),(0,0,0,0),(0,0,0,0),(0,0,0,0),(1,0,0,0),(0,0,0,0),(0,0,0,0)]
    ∧ readOutputs (classicalState (K := ℤ) 2) 2 2 =
      [(0,0,0,0),(0,0,0,0),(1,0,0,0),(0,0,0,0)] := by
  constructor <;> decide

theorem controlMask_matches_suite :
    (List.range 4).map (controlMask 0x3 0x1) = [false, true, false, false]
    ∧ (List.range 4).map (controlMask 0x1 0x0) = [true, false, true, false]
    ∧ (List.range 8).map (controlMask 0x5 0x4) =
        [false, false, false, false, true, false, true, false] := by
  refine ⟨?_, ?_, ?_⟩ <;> decide

theorem qubitOperation_matches_suite :
    (List.range 8).map
        (qubitOperation ampT (1,0) (0,-1) (0,1) (-1,0) 0 (controlMask 8 0)) =
      [(7,-1),(-7,-3),(15,-1),(-15,-3),(9,-2),(-8,-5),(30,-4),(-30,-8)]
    ∧ (List.range 8).map
        (qubitOperation ampT (1,0) (0,-1) (0,1) (-1,0) 0 (controlMask 2 0)) =
      [(7,-1),(-7,-3),(6,7),(8,9),(9,-2),(-8,-5),(11,13),(17,19)]
    ∧ (List.range 8).map
        (qubitOperation ampT (1,0) (0,-1) (0,1) (-1,0) 0 (controlMask 2 2)) =
      [(2,3),(4,5),(15,-1),(-15,-3),(2,3),(5,7),(30,-4),(-30,-8)]
    ∧ (List.range 8).map
        (qubitOperation ampT (1,0) (0,-1) (0,1) (-1,0) 0 (controlMask 4 0)) =
      [(7,-1),(-7,-3),(15,-1),(-15,-3),(2,3),(5,7),(11,13),(17,19)]
    ∧ (List.range 8).map
        (qubitOperation ampT (0,0) (0,0) (0,0) (0,0) 0 (controlMask 8 0)) =
      [(0,0),(0,0),(0,0),(0,0),(0,0),(0,0),(0,0),(0,0)]
    ∧ (List.range 8).map
        (qubitOperation ampT (1,0) (0,-1) (0,1) (-1,0) 1 (controlMask 8 0)) =
      [(9,-3),(13,-3),(-9,-5),(-13,-5),(15,-8),(24,-10),(-14,-11),(-24,-14)] := by
  refine ⟨?_, ?_, ?_, ?_, ?_, ?_⟩ <;> decide

theorem qubitOperation_flows_matches_suite :
    (List.range 2).map (qubitOperation ampF (1,0) (0,0) (0,0) (0,0) 0 (controlMask 2 0)) =
      [(1,2),(0,0)]
    ∧ (List.range 2).map (qubitOperation ampF (0,0) (1,0) (0,0) (0,0) 0 (controlMask 2 0)) =
      [(3,27),(0,0)]
    ∧ (List.range 2).map (qubitOperation ampF (0,0) (0,0) (1,0) (0,0) 0 (controlMask 2 0)) =
      [(0,0),(1,2)]
    ∧ (List.range 2).map (qubitOperation ampF (0,0) (0,0) (0,0) (1,0) 0 (controlMask 2 0)) =
      [(0,0),(3,27)] := by
  refine ⟨?_, ?_, ?_, ?_⟩ <;> decide

theorem swap_matches_suite :
    (List.range 8).map (swap swapT 0 1 (fun _ => true)) =
      [swapT 0, swapT 2, swapT 1, swapT 3, swapT 4, swapT 6, swapT 5, swapT 7]
    ∧ (List.range 8).map (swap swapT 0 1 (controlMask 4 0)) =
      [swapT 0, swapT 2, swapT 1, swapT 3, swapT 4, swapT 5, swapT 6, swapT 7]
    ∧ (List.range 8).map (swap swapT 0 2 (fun _ => true)) =
      [swapT 0, swapT 4, swapT 2, swapT 6, swapT 1, swapT 5, swapT 3, swapT 7]
    ∧ (List.range 8).map (swap swapT 0 2 (controlMask 2 0)) =
      [swapT 0, swapT 4, swapT 2, swapT 3, swapT 1, swapT 5, swapT 6, swapT 7]
    ∧ (List.range 8).map (swap swapT 0 2 (controlMask 2 2)) =
      [swapT 0, swapT 1, swapT 2, swapT 6, swapT 4, swapT 5, swapT 3, swapT 7] := by
  refine ⟨?_, ?_, ?_, ?_, ?_⟩ <;> decide

theorem controlSelect_matches_suite :
    (List.range 16).map (controlSelect 4 0 0 coords44) = (List.range 16).map coords44
    ∧ (List.range 8).map (controlSelect 4 1 0 coords44) =
        [(0,0),(2,0),(0,1),(2,1),(0,2),(2,2),(0,3),(2,3)]
    ∧ (List.range 8).map (controlSelect 4 1 1 coords44) =
        [(1,0),(3,0),(1,1),(3,1),(1,2),(3,2),(1,3),(3,3)]
    ∧ (List.range 8).map (controlSelect 4 2 0 coords44) =
        [(0,0),(1,0),(0,1),(1,1),(0,2),(1,2),(0,3),(1,3)]
    ∧ (List.range 8).map (controlSelect 4 2 2 coords44) =
        [(2,0),(3,0),(2,1),(3,1),(2,2),(3,2),(2,3),(3,3)]
    ∧ (List.range 8).map (controlSelect 4 4 0 coords44) =
        [(0,0),(1,0),(2,0),(3,0),(0,2),(1,2),(2,2),(3,2)]
    ∧ (List.range 8).map (controlSelect 4 4 4 coords44) =
        [(0,1),(1,1),(2,1),(3,1),(0,3),(1,3),(2,3),(3,3)]
    ∧ (List.range 8).map (controlSelect 4 8 0 coords44) =
        [(0,0),(1,0),(2,0),(3,0),(0,1),(1,1),(2,1),(3,1)]
    ∧ (List.range 8).map (controlSelect 4 8 8 coords44) =
        [(0,2),(1,2),(2,2),(3,2),(0,3),(1,3),(2,3),(3,3)] := by
  refine ⟨?_, ?_, ?_, ?_, ?_, ?_, ?_, ?_, ?_⟩ <;> decide

theorem controlSelect_multiple_matches_suite :
    (List.range 4).map (controlSelect 4 3 3 coords44) = [(3,0),(3,1),(3,2),(3,3)]
    ∧ (List.range 4).map (controlSelect 4 3 2 coords44) = [(2,0),(2,1),(2,2),(2,3)]
    ∧ (List.range 4).map (controlSelect 4 12 12 coords44) = [(0,3),(1,3),(2,3),(3,3)]
    ∧ (List.range 1).map (controlSelect 4 15 3 coords44) = [(3,0)] := by
  refine ⟨?_, ?_, ?_, ?_⟩ <;> decide

theorem linearOverlay_matches_suite :
    readCells (linearOverlay 0 foreT backT) =
      [(900,901,902,903),(904,905,906,907),(908,909,910,911),(912,913,914,915),
       (-16,-17,-18,-19),(-20,-21,-22,-23),(-24,-25,-26,-27),(-28,-29,-30,-31),
       (-32,-33,-34,-35),(-36,-37,-38,-39),(-40,-41,-42,-43),(-44,-45,-46,-47),
       (-48,-49,-50,-51),(-52,-53,-54,-55),(-56,-57,-58,-59),(-60,-61,-62,-63)]
    ∧ readCells (linearOverlay 1 foreT backT) =
      [(0,-1,-2,-3),(900,901,902,903),(904,905,906,907),(908,909,910,911),
       (912,913,914,915),(-20,-21,-22,-23),(-24,-25,-26,-27),(-28,-29,-30,-31),
       (-32,-33,-34,-35),(-36,-37,-38,-39),(-40,-41,-42,-43),(-44,-45,-46,-47),
       (-48,-49,-50,-51),(-52,-53,-54,-55),(-56,-57,-58,-59),(-60,-61,-62,-63)]
    ∧ readCells (linearOverlay 13 foreT backT) =
      [(0,-1,-2,-3),(-4,-5,-6,-7),(-8,-9,-10,-11),(-12,-13,-14,-15),
       (-16,-17,-18,-19),(-20,-21,-22,-23),(-24,-25,-26,-27),(-28,-29,-30,-31),
       (-32,-33,-34,-35),(-36,-37,-38,-39),(-40,-41,-42,-43),(-44,-45,-46,-47),
       (-48,-49,-50,-51),(900,901,902,903),(904,905,906,907),(908,909,910,911)] := by
  refine ⟨?_, ?_, ?_⟩ <;> decide

theorem allQubitDensities_zero_matches_suite :
    (List.range 32).map (allQubitDensities 4 zeroAmp16) =
      [(1,0,0,0),(1,0,0,0),(1,0,0,0),(1,0,0,0)] ++ List.replicate 28 (0,0,0,0) := by
  decide

theorem controlSelect_skewed_matches_suite :
    readOutputs (controlSelect 4 2 2 coords28) 8 1 =
      [(0,1),(1,1),(0,3),(1,3),(0,5),(1,5),(0,7),(1,7)]
    ∧ readOutputs (controlSelect 4 2 2 coords28) 4 2 =
      [(0,1),(1,1),(0,3),(1,3),(0,5),(1,5),(0,7),(1,7)]
    ∧ readOutputs (controlSelect 4 2 2 coords28) 2 4 =
      [(0,1),(1,1),(0,3),(1,3),(0,5),(1,5),(0,7),(1,7)]
    ∧ readOutputs (controlSelect 4 2 2 coords28) 1 8 =
      [(0,1),(1,1),(0,3),(1,3),(0,5),(1,5),(0,7),(1,7)] := by
  refine ⟨?_, ?_, ?_, ?_⟩ <;> decide

theorem squaredMagnitude_matches_suite :
    (List.range 6).map (squaredMagnitude sqT) =
      [(13,0,0,0),(1/2,0,0,0),(30,0,0,0),(5/16,0,0,0),(1,0,0,0),(1,0,0,0)] := by
  norm_num [squaredMagnitude, sqT, ofList, List.range_succ]

theorem allQubitDensities_amp01_matches_suite :
    allQubitDensities 1 amp01 0 = (4/25, 0, 6/25, 9/25) := by
  norm_num [allQubitDensities, densityPiece, insertBitAt, cmul, cconj, amp01, ofList]

theorem allQubitDensities_mix_matches_suite :
    allQubitDensities 4 mixAmp16 3 = (0, 0, 0, 1/4)
    ∧ allQubitDensities 4 mixAmp16 16 = (1/4, 0, 0, 0)
    ∧ allQubitDensities 4 mixAmp16 17 = (1/4, 1/4, 0, 1/4)
    ∧ allQubitDensities 4 mixAmp16 18 = (1/4, 0, 1/4, 1/4)
    ∧ allQubitDensities 4 mixAmp16 28 = (1/4, 0, 0, 0) := by
  refine ⟨?_, ?_, ?_, ?_, ?_⟩ <;>
    norm_num [allQubitDensities, densityPiece, insertBitAt, cmul, cconj, mixAmp16]

theorem two_pow_sub_one_decomp (n q : Nat) (hq : q ≤ n) :
    2 ^ q * (2 ^ (n - q) - 1) + (2 ^ q - 1) = 2 ^ n - 1 := by
  have hA : (1:ℕ) ≤ 2 ^ q := Nat.one_le_two_pow
  have hA2 : 2 ^ q ≤ 2 ^ n := Nat.pow_le_pow_right (by omega) hq
  have hAB : 2 ^ q * 2 ^ (n - q) = 2 ^ n := by rw [← pow_add]; congr 1; omega
  rw [Nat.mul_sub_one, hAB]
  omega

theorem two_pow_sub_one_div (n q : Nat) (hq : q ≤ n) :
    (2 ^ n - 1) / 2 ^ q = 2 ^ (n - q) - 1 := by
  rw [← two_pow_sub_one_decomp n q hq,
    Nat.mul_add_div (Nat.pos_pow_of_pos q (by omega)),
    Nat.div_eq_of_lt (by have := Nat.one_le_two_pow (n := q); omega)]
  omega

theorem two_pow_sub_one_mod (n q : Nat) (hq : q ≤ n) :
    (2 ^ n - 1) % 2 ^ q = 2 ^ q - 1 := by
  rw [← two_pow_sub_one_decomp n q hq, Nat.mul_add_mod,
    Nat.mod_eq_of_lt (by have := Nat.one_le_two_pow (n := q); omega)]

theorem bitAt_two_pow_sub_one (n q : Nat) (hq : q < n) :
    bitAt q (2 ^ n - 1) = 1 := by
  unfold bitAt
  rw [two_pow_sub_one_div n q (by omega)]
  have h1 : 2 ^ (n - q) = 2 * 2 ^ (n - q - 1) := by
    rw [← pow_succ']; congr 1; omega
  have h2 : (1:ℕ) ≤ 2 ^ (n - q - 1) := Nat.one_le_two_pow
  omega

theorem insertBitAt_zero_eq_zero_iff (q p : Nat) :
    insertBitAt q 0 p = 0 ↔ p = 0 := by
  constructor
  · intro h
    unfold insertBitAt at h
    have h1 := Nat.add_eq_zero.mp h
    have h2 := Nat.mul_eq_zero.mp h1.1
    have h3 : 2 ^ q ≠ 0 := Nat.pos_iff_ne_zero.mp (Nat.pos_pow_of_pos q (by omega))
    have h4 : p / 2 ^ q = 0 := by
      rcases h2 with h2 | h2
      · exact absurd h2 h3
      · omega
    have h5 := Nat.div_add_mod p (2 ^ q)
    rw [h4, Nat.mul_zero, Nat.zero_add] at h5
    omega
  · intro h; subst h; simp [insertBitAt]

theorem insertBitAt_one_ne_zero (q p : Nat) : insertBitAt q 1 p ≠ 0 := by
  unfold insertBitAt
  intro h
  have h1 := Nat.add_eq_zero.mp h
  have h2 := Nat.mul_eq_zero.mp h1.1
  have h3 : (1:ℕ) ≤ 2 ^ q := Nat.one_le_two_pow
  rcases h2 with h2 | h2 <;> omega

theorem insertBitAt_one_allones (n q : Nat) (hq : q < n) :
    insertBitAt q 1 (2 ^ (n - 1) - 1) = 2 ^ n - 1 := by
  unfold insertBitAt
  rw [two_pow_sub_one_div (n - 1) q (by omega),
    two_pow_sub_one_mod (n - 1) q (by omega)]
  have hC : (1:ℕ) ≤ 2 ^ (n - 1 - q) := Nat.one_le_two_pow
  have e1 : 2 * (2 ^ (n - 1 - q) - 1) + 1 = 2 * 2 ^ (n - 1 - q) - 1 := by omega
  rw [e1]
  have e2 : 2 * 2 ^ (n - 1 - q) = 2 ^ (n - q) := by
    rw [← pow_succ']; congr 1; omega
  rw [e2]
  exact two_pow_sub_one_decomp n q (by omega)

theorem insertBitAt_one_eq_allones_iff (n q p : Nat) (hq : q < n) :
    insertBitAt q 1 p = 2 ^ n - 1 ↔ p = 2 ^ (n - 1) - 1 := by
  constructor
  · intro h
    have h1 : removeBitAt q (insertBitAt q 1 p) =
        removeBitAt q (insertBitAt q 1 (2 ^ (n - 1) - 1)) := by
      rw [h, insertBitAt_one_allones n q hq]
    rwa [removeBitAt_insertBitAt q 1 p (by omega),
      removeBitAt_insertBitAt q 1 _ (by omega)] at h1
  · intro h; subst h; exact insertBitAt_one_allones n q hq

theorem insertBitAt_zero_ne_allones (n q p : Nat) (hq : q < n) :
    insertBitAt q 0 p ≠ 2 ^ n - 1 := by
  intro h
  have h1 : bitAt q (insertBitAt q 0 p) = 0 := bitAt_insertBitAt q 0 p (by omega)
  rw [h, bitAt_two_pow_sub_one n q hq] at h1
  omega

theorem two_pow_ne_two_pow_sub_one (n q : Nat) (hn : 2 ≤ n) (hq : q < n) :
    2 ^ q ≠ 2 ^ n - 1 := by
  match q with
  | 0 =>
    have h4 : (4:ℕ) ≤ 2 ^ n := by
      calc (4:ℕ) = 2 ^ 2 := rfl
        _ ≤ 2 ^ n := Nat.pow_le_pow_right (by omega) hn
    simp only [pow_zero]
    omega
  | k + 1 =>
    have h1 : 2 ^ (k + 1) = 2 * 2 ^ k := by rw [← pow_succ']
    have h2 : 2 ^ n = 2 * 2 ^ (n - 1) := by rw [← pow_succ']; congr 1; omega
    have h3 : (1:ℕ) ≤ 2 ^ (n - 1) := Nat.one_le_two_pow
    omega

/-- For `n >= 2` qubits, every reduced density record of the GHZ-type state
`(|0..0> + |1..1>)/sqrt 2` is the maximally mixed `(1/2, 0, 0, 1/2)`: the
off-diagonal partial-trace terms pair an amplitude with a zero amplitude. -/
theorem ghz_qubitDensity {K : Type} [Field K] (n q : Nat) (s : K) (hn : 2 ≤ n)
    (hq : q < n) (hs : s * s = 1 / 2) :
    qubitDensity n q (ghzAmp n s) = (1 / 2, 0, 0, 1 / 2) := by
  have hpos : 0 < 2 ^ (n - 1) := Nat.pos_pow_of_pos _ (by omega)
  have hbig : (2:ℕ) ≤ 2 ^ (n - 1) := by
    calc (2:ℕ) = 2 ^ 1 := rfl
      _ ≤ 2 ^ (n - 1) := Nat.pow_le_pow_right (by omega) (by omega)
  have ha0 : ∀ p, p ≠ 0 → ghzAmp n s (insertBitAt q 0 p) = (0, 0) := by
    intro p hp
    unfold ghzAmp
    rw [if_neg]
    rintro (h | h)
    · exact hp ((insertBitAt_zero_eq_zero_iff q p).mp h)
    · exact insertBitAt_zero_ne_allones n q p hq h
  have ha0e : ghzAmp n s (insertBitAt q 0 0) = (s, 0) := by
    rw [(insertBitAt_zero_eq_zero_iff q 0).mpr rfl]
    simp [ghzAmp]
  have ha1 : ∀ p, p ≠ 2 ^ (n - 1) - 1 → ghzAmp n s (insertBitAt q 1 p) = (0, 0) := by
    intro p hp
    unfold ghzAmp
    rw [if_neg]
    rintro (h | h)
    · exact insertBitAt_one_ne_zero q p h
    · exact hp ((insertBitAt_one_eq_allones_iff n q p hq).mp h)
  have ha1e : ghzAmp n s (insertBitAt q 1 (2 ^ (n - 1) - 1)) = (s, 0) := by
    rw [insertBitAt_one_allones n q hq]
    have h1 : (2:ℕ) ^ n - 1 ≠ 0 := by
      have : (2:ℕ) ≤ 2 ^ n := by
        calc (2:ℕ) = 2 ^ 1 := rfl
          _ ≤ 2 ^ n := Nat.pow_le_pow_right (by omega) (by omega)
      omega
    simp [ghzAmp]
  have ha1z : ghzAmp n s (insertBitAt q 1 0) = (0, 0) := by
    have he : insertBitAt q 1 0 = 2 ^ q := by simp [insertBitAt]
    rw [he]
    unfold ghzAmp
    rw [if_neg]
    rintro (h | h)
    · exact absurd h (Nat.pos_iff_ne_zero.mp (Nat.pos_pow_of_pos q (by omega)))
    · exact two_pow_ne_two_pow_sub_one n q hn hq h
  unfold qubitDensity
  simp only [Prod.mk.injEq]
  refine ⟨?_, ?_, ?_, ?_⟩
  · rw [Finset.sum_eq_single 0
      (fun p _ hp0 => by simp [densityPiece, cmul, cconj, ha0 p hp0])
      (fun h => absurd (Finset.mem_range.mpr hpos) h)]
    simp [densityPiece, cmul, cconj, ha0e, hs]
  · refine Finset.sum_eq_zero ?_
    intro p _
    by_cases hp0 : p = 0
    · subst hp0
      simp [densityPiece, cmul, cconj, ha0e, ha1z]
    · simp [densityPiece, cmul, cconj, ha0 p hp0]
  · refine Finset.sum_eq_zero ?_
    intro p _
    by_cases hp0 : p = 0
    · subst hp0
      simp [densityPiece, cmul, cconj, ha0e, ha1z]
    · simp [densityPiece, cmul, cconj, ha0 p hp0]
  · rw [Finset.sum_eq_single (2 ^ (n - 1) - 1)
      (fun p _ hpn => by simp [densityPiece, cmul, cconj, ha1 p hpn])
      (fun h => absurd (Finset.mem_range.mpr (by omega)) h)]
    simp [densityPiece, cmul, cconj, ha1e, hs]

/-!
Claim theorems: one theorem per claim of the specification review, each
stated over the kernel models above.
-/

/-- C2: `qubitOperation` partitions the state indices into pairs
`{i0, i1}` identical except at bit `q` (parametrized here as
`i0 = insertBitAt q 0 p`, `i1 = insertBitAt q 1 p`); a pair whose mask
value (read at `i0`) is 0 passes through unchanged, and a pair whose mask
value is 1 receives `new(i0) = M00*old(i0) + M01*old(i1)`,
`new(i1) = M10*old(i0) + M11*old(i1)` with complex multiply-accumulate.
In particular the one-qubit buffer `[(1,2), (3,27)]` under the matrix
`[[0,0],[1,0]]` with an always-true mask becomes `[(0,0), (1,2)]`. -/
theorem C2_qubitOperation_pairs :
    (∀ (K : Type) [inst : CommRing K] (amp : Nat → K × K)
        (m00 m01 m10 m11 : K × K) (q p : Nat) (mask : Nat → Bool),
      (mask (insertBitAt q 0 p) = false →
        qubitOperation amp m00 m01 m10 m11 q mask (insertBitAt q 0 p) =
            amp (insertBitAt q 0 p)
          ∧ qubitOperation amp m00 m01 m10 m11 q mask (insertBitAt q 1 p) =
            amp (insertBitAt q 1 p))
      ∧ (mask (insertBitAt q 0 p) = true →
        qubitOperation amp m00 m01 m10 m11 q mask (insertBitAt q 0 p) =
            cmul m00 (amp (insertBitAt q 0 p)) + cmul m01 (amp (insertBitAt q 1 p))
          ∧ qubitOperation amp m00 m01 m10 m11 q mask (insertBitAt q 1 p) =
            cmul m10 (amp (insertBitAt q 0 p)) + cmul m11 (amp (insertBitAt q 1 p))))
    ∧ (List.range 2).map
        (qubitOperation ampF (0,0) (0,0) (1,0) (0,0) 0 (controlMask 2 0)) =
      [(0,0),(1,2)] := by
  constructor
  · intro K inst amp m00 m01 m10 m11 q p mask
    have e00 : forceBit q 0 (insertBitAt q 0 p) = insertBitAt q 0 p :=
      forceBit_insertBitAt q 0 0 p (by omega)
    have e01 : forceBit q 1 (insertBitAt q 0 p) = insertBitAt q 1 p :=
      forceBit_insertBitAt q 1 0 p (by omega)
    have e10 : forceBit q 0 (insertBitAt q 1 p) = insertBitAt q 0 p :=
      forceBit_insertBitAt q 0 1 p (by omega)
    have e11 : forceBit q 1 (insertBitAt q 1 p) = insertBitAt q 1 p :=
      forceBit_insertBitAt q 1 1 p (by omega)
    have b0 : bitAt q (insertBitAt q 0 p) = 0 := bitAt_insertBitAt q 0 p (by omega)
    have b1 : bitAt q (insertBitAt q 1 p) = 1 := bitAt_insertBitAt q 1 p (by omega)
    constructor
    · intro hm
      constructor <;> simp [qubitOperation, e00, e01, e10, e11, b0, b1, hm]
    · intro hm
      constructor <;> simp [qubitOperation, e00, e01, e10, e11, b0, b1, hm]
  · decide

/-- C2 witness: the pair rule applied at the concrete Scenario C input
(one-qubit buffer `[(1,2),(3,27)]`, matrix `[[0,0],[1,0]]`, always-true
mask, pair `p = 0`). -/
theorem C2_qubitOperation_pairs_witness :
    qubitOperation ampF (0,0) (0,0) (1,0) (0,0) 0 (controlMask 2 0)
        (insertBitAt 0 0 0) =
      cmul (0,0) (ampF (insertBitAt 0 0 0)) + cmul (0,0) (ampF (insertBitAt 0 1 0))
    ∧ qubitOperation ampF (0,0) (0,0) (1,0) (0,0) 0 (controlMask 2 0)
        (insertBitAt 0 1 0) =
      cmul (1,0) (ampF (insertBitAt 0 0 0)) + cmul (0,0) (ampF (insertBitAt 0 1 0)) :=
  (C2_qubitOperation_pairs.1 ℤ ampF (0,0) (0,0) (1,0) (0,0) 0 0
    (controlMask 2 0)).2 (by decide)

/-- C3 counterexample: on the test row `(1, 2, 3, 4)` the kernel outputs
`1+4+9+16 = 30` in the first channel (as the test asserts), not the
claim's `re^2 + im^2 = 5`: the two spare channels are squared in too. -/
theorem C3_squaredMagnitude_counterexample :
    squaredMagnitude sqT 2 = (30, 0, 0, 0)
    ∧ claimSquaredMagnitude sqT 2 = (5, 0, 0, 0)
    ∧ squaredMagnitude sqT 2 ≠ claimSquaredMagnitude sqT 2 := by
  refine ⟨?_, ?_, ?_⟩ <;> norm_num [squaredMagnitude, claimSquaredMagnitude, sqT, ofList]

/-- C3 (amended): each output cell's first channel is the dot product of
the input cell with itself over all four channels, and the remaining
channels are zero; this agrees with the claim's `re^2 + im^2` exactly when
the cell's two spare channels are zero. -/
theorem C3_squaredMagnitude_amended :
    (∀ (K : Type) [inst : CommRing K] (buf : Nat → K × K × K × K) (c : Nat),
      squaredMagnitude buf c =
        ((buf c).1 * (buf c).1 + (buf c).2.1 * (buf c).2.1 +
         (buf c).2.2.1 * (buf c).2.2.1 + (buf c).2.2.2 * (buf c).2.2.2, 0, 0, 0)
      ∧ ((buf c).2.2.1 = 0 → (buf c).2.2.2 = 0 →
          squaredMagnitude buf c = claimSquaredMagnitude buf c))
    ∧ (List.range 6).map (squaredMagnitude sqT) =
        [(13,0,0,0),(1/2,0,0,0),(30,0,0,0),(5/16,0,0,0),(1,0,0,0),(1,0,0,0)] := by
  constructor
  · intro K inst buf c
    refine ⟨rfl, ?_⟩
    intro h1 h2
    simp [squaredMagnitude, claimSquaredMagnitude, h1, h2]
  · exact squaredMagnitude_matches_suite

/-- C3 witness: on the buffer row `(3/5, 4/5, 0, 0)` (spare channels zero)
the kernel agrees with the claim's two-channel formula. -/
theorem C3_squaredMagnitude_amended_witness :
    squaredMagnitude sqT 4 = claimSquaredMagnitude sqT 4 :=
  (C3_squaredMagnitude_amended.1 ℚ sqT 4).2 (by norm_num [sqT, ofList])
    (by norm_num [sqT, ofList])

/-- C6: for distinct qubit indices `a`, `b`, `swap` sends index `i` to the
cell at the index with bits `a` and `b` both flipped whenever
`bit a ≠ bit b` at `i` and the mask allows `i`, and leaves every other
index unchanged; flipping twice returns to `i`, so allowed pairs are
exchanged. The concrete conjuncts replay two controlled rows of the
test suite. -/
theorem C6_swap_exchanges :
    (∀ (α : Type) (buf : Nat → α) (a b : Nat) (mask : Nat → Bool) (i : Nat),
      a ≠ b →
      (bitAt a i ≠ bitAt b i → mask i = true →
        swap buf a b mask i = buf (flipBits a b i))
      ∧ (bitAt a i = bitAt b i ∨ mask i = false → swap buf a b mask i = buf i)
      ∧ flipBits a b (flipBits a b i) = i)
    ∧ (List.range 8).map (swap swapT 0 2 (controlMask 2 0)) =
        [swapT 0, swapT 4, swapT 2, swapT 3, swapT 1, swapT 5, swapT 6, swapT 7]
    ∧ (List.range 8).map (swap swapT 0 2 (controlMask 2 2)) =
        [swapT 0, swapT 1, swapT 2, swapT 6, swapT 4, swapT 5, swapT 3, swapT 7] := by
  refine ⟨?_, ?_, ?_⟩
  · intro α buf a b mask i hab
    refine ⟨?_, ?_, ?_⟩
    · intro hne hm
      simp [swap, hne, hm]
    · intro h
      rcases h with h | h
      · simp [swap, h]
      · simp [swap, h]
    · unfold flipBits
      have hcomm : ∀ x y z : ℕ, x ^^^ y ^^^ z = x ^^^ z ^^^ y := fun x y z => by
        rw [Nat.xor_assoc, Nat.xor_comm y z, ← Nat.xor_assoc]
      calc i ^^^ 2 ^ a ^^^ 2 ^ b ^^^ 2 ^ a ^^^ 2 ^ b
          = i ^^^ 2 ^ b ^^^ 2 ^ a ^^^ 2 ^ a ^^^ 2 ^ b := by
            rw [hcomm i (2 ^ a) (2 ^ b)]
        _ = i ^^^ 2 ^ b ^^^ 2 ^ b := by rw [Nat.xor_cancel_right]
        _ = i := Nat.xor_cancel_right _ _
  · decide
  · decide

/-- C6 witness: the exchange rule applied at concrete index 3 of the
masked `swap(inp, 0, 2, bit1-true-mask)` test row. -/
theorem C6_swap_exchanges_witness :
    swap swapT 0 2 (controlMask 2 2) 3 = swapT (flipBits 0 2 3) :=
  ((C6_swap_exchanges.1 (ℕ × ℕ × ℕ × ℕ) swapT 0 2 (controlMask 2 2) 3
    (by omega)).1) (by decide) (by decide)

theorem popcnt_le (n : Nat) : ∀ m, popcnt n m ≤ n := by
  induction n with
  | zero => intro m; simp [popcnt]
  | succ k ih =>
    intro m
    have h1 : m % 2 ≤ 1 := by omega
    have h2 := ih (m / 2)
    simp only [popcnt]
    omega

theorem insertBits_lt (n : Nat) :
    ∀ m v j, j < 2 ^ (n - popcnt n m) → insertBits n m v j < 2 ^ n := by
  induction n with
  | zero =>
    intro m v j hj
    simpa [insertBits, popcnt] using hj
  | succ k ih =>
    intro m v j hj
    have hpow : 2 ^ (k + 1) = 2 * 2 ^ k := by rw [← pow_succ']
    by_cases hm : m % 2 = 1
    · have hpc : popcnt (k + 1) m = 1 + popcnt k (m / 2) := by
        simp only [popcnt]; omega
      have hj2 : j < 2 ^ (k - popcnt k (m / 2)) := by
        have : k + 1 - popcnt (k + 1) m = k - popcnt k (m / 2) := by
          have := popcnt_le k (m / 2); omega
        rwa [this] at hj
      have hr := ih (m / 2) (v / 2) j hj2
      simp only [insertBits, if_pos hm]
      have hv : v % 2 ≤ 1 := by omega
      omega
    · have hpc : popcnt (k + 1) m = popcnt k (m / 2) := by
        simp only [popcnt]; omega
      have hle := popcnt_le k (m / 2)
      have hj2 : j / 2 < 2 ^ (k - popcnt k (m / 2)) := by
        have h1 : k + 1 - popcnt (k + 1) m = (k - popcnt k (m / 2)) + 1 := by omega
        rw [h1] at hj
        have h2 : 2 ^ ((k - popcnt k (m / 2)) + 1) = 2 * 2 ^ (k - popcnt k (m / 2)) := by
          rw [← pow_succ']
        omega
      have hr := ih (m / 2) (v / 2) (j / 2) hj2
      simp only [insertBits, if_neg hm]
      have hjm : j % 2 ≤ 1 := by omega
      omega

/-- C7: `controlSelect` produces a buffer of logical size
source-size / 2^popcount(mask); output index `j` holds the source cell at
the index formed by inserting the control value's bits at the mask
positions and `j`'s bits at the remaining positions in original bit order
(`insertBits`), and that index is a valid source index. The concrete
conjuncts replay multi-control and single-control rows of the test
suite. -/
theorem C7_controlSelect_gather :
    (∀ (α : Type) (src : Nat → α) (n m v j : Nat),
      controlSelect n m v src j = src (insertBits n m v j))
    ∧ (∀ n m : Nat, 2 ^ n / 2 ^ popcnt n m = 2 ^ (n - popcnt n m))
    ∧ (∀ n m v j : Nat, j < 2 ^ (n - popcnt n m) → insertBits n m v j < 2 ^ n)
    ∧ (List.range 4).map (controlSelect 4 3 3 coords44) = [(3,0),(3,1),(3,2),(3,3)]
    ∧ (List.range 4).map (controlSelect 4 12 12 coords44) =
        [(0,3),(1,3),(2,3),(3,3)]
    ∧ (List.range 8).map (controlSelect 4 2 2 coords28) =
        [(0,1),(1,1),(0,3),(1,3),(0,5),(1,5),(0,7),(1,7)] := by
  refine ⟨?_, ?_, ?_, ?_, ?_, ?_⟩
  · intro α src n m v j; rfl
  · intro n m
    exact Nat.pow_div (popcnt_le n m) (by omega)
  · exact fun n m v j h => insertBits_lt n m v j h
  · decide
  · decide
  · decide

/-- C7 witness: the gather equation and the source-index bound at the
concrete multi-control instance `mask = 0x3`, `value = 0x3`, `j = 2`. -/
theorem C7_controlSelect_gather_witness :
    controlSelect 4 3 3 coords44 2 = coords44 (insertBits 4 3 3 2)
    ∧ insertBits 4 3 3 2 < 2 ^ 4 :=
  ⟨C7_controlSelect_gather.1 (ℕ × ℕ) coords44 4 3 3 2,
   C7_controlSelect_gather.2.2.1 4 3 3 2 (by decide)⟩

/-- C8: reshape invariance. Every kernel output is a pure function of the
linear cell index, and reading any such buffer against a W x H grid
enumerates exactly the linear indices in order, so any two factorizations
of the same logical size read back identical per-index values; in
particular `classicalState` buffers, and the skewed `controlSelect`
output of the test suite read at 8x1, 4x2, 2x4 and 1x8. -/
theorem C8_reshape_invariance :
    (∀ (α : Type) (f : Nat → α) (W H W2 H2 : Nat), W * H = W2 * H2 →
      readOutputs f W H = readOutputs f W2 H2)
    ∧ (∀ (s W H W2 H2 : Nat), W * H = W2 * H2 →
      readOutputs (classicalState (K := ℚ) s) W H =
        readOutputs (classicalState s) W2 H2)
    ∧ readOutputs (controlSelect 4 2 2 coords28) 8 1 =
        readOutputs (controlSelect 4 2 2 coords28) 4 2
    ∧ readOutputs (controlSelect 4 2 2 coords28) 4 2 =
        readOutputs (controlSelect 4 2 2 coords28) 2 4
    ∧ readOutputs (controlSelect 4 2 2 coords28) 2 4 =
        readOutputs (controlSelect 4 2 2 coords28) 1 8 := by
  refine ⟨?_, ?_, ?_, ?_, ?_⟩
  · exact fun α f W H W2 H2 h => readOutputs_reshape f W H W2 H2 h
  · exact fun s W H W2 H2 h => readOutputs_reshape _ W H W2 H2 h
  · decide
  · decide
  · decide

/-- C8 witness: the invariance applied to the `classicalState(5)` buffer
of the test suite, read at 2x4 and at 4x2. -/
theorem C8_reshape_invariance_witness :
    readOutputs (classicalState (K := ℚ) 5) 2 4 = readOutputs (classicalState 5) 4 2 :=
  C8_reshape_invariance.2.1 5 2 4 4 2 rfl

/-- C10: `linearOverlay` treats both buffers as flat cell sequences with
the offset measured in single cells: output cell `c` (within the
background's extent) is foreground cell `c - k` when `k ≤ c` and
`c - k` is below the foreground cell count, and background cell `c`
otherwise; foreground cells whose target position falls past the
background's last cell are silently dropped, as in the offset-12 and
offset-13 rows of the test suite replayed here. -/
theorem C10_linearOverlay_flat_cells :
    (∀ (α : Type) (k : Nat) (fore back : Buf α) (c : Nat),
      c < back.width * back.height →
      (linearOverlay k fore back).cell c =
        if k ≤ c ∧ c - k < fore.width * fore.height then fore.cell (c - k)
        else back.cell c)
    ∧ readCells (linearOverlay 2 foreT backT) =
      [(0,-1,-2,-3),(-4,-5,-6,-7),(900,901,902,903),(904,905,906,907),
       (908,909,910,911),(912,913,914,915),(-24,-25,-26,-27),(-28,-29,-30,-31),
       (-32,-33,-34,-35),(-36,-37,-38,-39),(-40,-41,-42,-43),(-44,-45,-46,-47),
       (-48,-49,-50,-51),(-52,-53,-54,-55),(-56,-57,-58,-59),(-60,-61,-62,-63)]
    ∧ readCells (linearOverlay 12 foreT backT) =
      [(0,-1,-2,-3),(-4,-5,-6,-7),(-8,-9,-10,-11),(-12,-13,-14,-15),
       (-16,-17,-18,-19),(-20,-21,-22,-23),(-24,-25,-26,-27),(-28,-29,-30,-31),
       (-32,-33,-34,-35),(-36,-37,-38,-39),(-40,-41,-42,-43),(-44,-45,-46,-47),
       (900,901,902,903),(904,905,906,907),(908,909,910,911),(912,913,914,915)] := by
  refine ⟨?_, ?_, ?_⟩
  · intro α k fore back c hc; rfl
  · decide
  · decide

/-- C10 witness: the flat-cell rule evaluated at cell 3 of the offset-1
overlay of the test fixtures. -/
theorem C10_linearOverlay_flat_cells_witness :
    (linearOverlay 1 foreT backT).cell 3 =
      if 1 ≤ 3 ∧ 3 - 1 < foreT.width * foreT.height then foreT.cell (3 - 1)
      else backT.cell 3 :=
  C10_linearOverlay_flat_cells.1 _ 1 foreT backT 3 (by decide)

/-- C1 counterexample: on the test's one-qubit buffer `0.4|0> + 0.6i|1>`
the packed record is `(0.16, 0, 0.24, 0.36)` exactly as the test asserts,
while the claim's formula `amp(i) * conj(amp(i with bit forced))` puts
`-0.24` in the im01 slot: the code conjugates the first factor, not the
second, so the claimed entry disagrees with the buffer. -/
theorem C1_allQubitDensities_counterexample :
    allQubitDensities 1 amp01 0 = (4/25, 0, 6/25, 9/25)
    ∧ (claimDensitySum 1 0 0 1 amp01).2 = -(6/25)
    ∧ (allQubitDensities 1 amp01 0).2.2.1 ≠ (claimDensitySum 1 0 0 1 amp01).2 := by
  have hfilter : (Finset.range (2 ^ 1)).filter (fun i => bitAt 0 i = 0) = {0} := by
    decide
  have hforce : forceBit 0 1 0 = 1 := by decide
  have hclaim : (claimDensitySum 1 0 0 1 amp01).2 = -(6/25) := by
    unfold claimDensitySum
    rw [hfilter, Finset.sum_singleton, hforce]
    norm_num [cmul, cconj, amp01, ofList]
  have hcode : allQubitDensities 1 amp01 0 = (4/25, 0, 6/25, 9/25) :=
    allQubitDensities_amp01_matches_suite
  refine ⟨hcode, hclaim, ?_⟩
  rw [hcode, hclaim]
  norm_num

/-- C1 (amended): `allQubitDensities` over `n` qubits emits one partial
record per (qubit `q`, setting `p` of the remaining `n-1` bits), at cell
`p * n + q`; the componentwise sum of qubit `q`'s records over `p`
(performed by a later reduction pass, not by this kernel) is the reduced
density record whose entry `rho_q[a][b]` is the sum, over state indices
`i` with bit `q` equal to `a`, of `conj(amp(i)) * amp(i with bit q forced
to b)` — conjugation on the first factor. -/
theorem C1_allQubitDensities_amended :
    ∀ (K : Type) [inst : CommRing K] (n q p : Nat) (amp : Nat → K × K),
      q < n → p < 2 ^ (n - 1) →
      allQubitDensities n amp (p * n + q) = densityPiece q p amp
      ∧ qubitDensity n q amp =
          ((densitySum n q 0 0 amp).1, (densitySum n q 0 1 amp).1,
           (densitySum n q 0 1 amp).2, (densitySum n q 1 1 amp).1) := by
  intro K inst n q p amp hq hp
  constructor
  · unfold allQubitDensities
    have e1 : (p * n + q) % n = q := by
      rw [Nat.mul_comm, Nat.mul_add_mod, Nat.mod_eq_of_lt hq]
    have e2 : (p * n + q) / n = p := by
      rw [Nat.mul_comm, Nat.mul_add_div (by omega), Nat.div_eq_of_lt hq]
      omega
    rw [e1, e2]
  · exact qubitDensity_eq_densitySum n q hq amp

/-- C1 witness: the amended statement instantiated at the test's
one-qubit buffer `0.4|0> + 0.6i|1>`. -/
theorem C1_allQubitDensities_amended_witness :
    allQubitDensities 1 amp01 (0 * 1 + 0) = densityPiece 0 0 amp01
    ∧ qubitDensity 1 0 amp01 =
        ((densitySum 1 0 0 0 amp01).1, (densitySum 1 0 0 1 amp01).1,
         (densitySum 1 0 0 1 amp01).2, (densitySum 1 0 1 1 amp01).1) :=
  C1_allQubitDensities_amended ℚ 1 0 0 amp01 (by omega) (by omega)

/-- C4 counterexample: with equal widths (2), a one-row foreground and a
two-row background, offset `k = 1` splices the foreground into cells
[1, 3), overwriting the second half of background row 0 and the first
half of row 1 — not into row range [k*h_f, (k+1)*h_f) = row 1 (cells
[2, 4)) as the claim states. -/
theorem C4_linearOverlay_counterexample :
    fore21.width = back22.width
    ∧ readCells (linearOverlay 1 fore21 back22) =
        [(200,0,0,0),(100,0,0,0),(101,0,0,0),(203,0,0,0)]
    ∧ readCells (linearOverlay 1 fore21 back22) ≠
        [(200,0,0,0),(201,0,0,0),(100,0,0,0),(101,0,0,0)] := by
  refine ⟨?_, ?_, ?_⟩ <;> decide

/-- C4 (amended): for equal widths the block offset `k` is measured in
single cells, not in foreground-row blocks: output cell `c` of the
background's extent equals foreground cell `c - k` when
`k ≤ c < k +` (foreground cell count), and background cell `c`
otherwise. -/
theorem C4_linearOverlay_amended :
    ∀ (α : Type) (k : Nat) (fore back : Buf α) (c : Nat),
      fore.width = back.width →
      c < back.width * back.height →
      (linearOverlay k fore back).cell c =
        if k ≤ c ∧ c < k + fore.width * fore.height then fore.cell (c - k)
        else back.cell c := by
  intro α k fore back c hw hc
  show (if k ≤ c ∧ c - k < fore.width * fore.height then fore.cell (c - k)
      else back.cell c) = _
  by_cases h : k ≤ c ∧ c - k < fore.width * fore.height
  · rw [if_pos h, if_pos (by omega)]
  · rw [if_neg h, if_neg (by omega)]

/-- C4 witness: the amended cell rule evaluated at cell 1 of the
equal-width counterexample fixtures. -/
theorem C4_linearOverlay_amended_witness :
    (linearOverlay 1 fore21 back22).cell 1 =
      if 1 ≤ 1 ∧ 1 < 1 + fore21.width * fore21.height then fore21.cell (1 - 1)
      else back22.cell 1 :=
  C4_linearOverlay_amended _ 1 fore21 back22 1 (by decide) (by decide)

/-- C5 counterexample: for the 2-qubit state `(|00> + |11>)/sqrt 2` the
reduced density record of qubit 0 is `(0.5, 0, 0, 0.5)` — the maximally
mixed state, off-diagonals zero, matching the n=4 test vectors — and not
`(0.5, 0.5, 0, 0.5)` as the claim states for every n. -/
theorem C5_ghz_counterexample :
    qubitDensity 2 0 (ghzAmp 2 (Real.sqrt 2⁻¹)) = (1/2, 0, 0, 1/2)
    ∧ qubitDensity 2 0 (ghzAmp 2 (Real.sqrt 2⁻¹)) ≠ ((1:ℝ)/2, 1/2, 0, 1/2) := by
  have hs : Real.sqrt 2⁻¹ * Real.sqrt 2⁻¹ = 1 / 2 := by
    rw [Real.mul_self_sqrt (by norm_num)]
    norm_num
  have h := ghz_qubitDensity 2 0 (Real.sqrt 2⁻¹) (by omega) (by omega) hs
  refine ⟨h, ?_⟩
  rw [h]
  intro hcontra
  have h2 := congrArg (fun t => t.2.1) hcontra
  norm_num at h2

/-- C5 (amended): for every `n ≥ 2`, every qubit of the state
`(|0..0> + |1..1>)/sqrt 2` has the reduced density record
`re00 = 0.5, re01 = 0, im01 = 0, re11 = 0.5` (the claimed `re01 = 0.5`
holds only in the single-qubit case). -/
theorem C5_ghz_amended :
    ∀ (K : Type) [inst : Field K] (n q : Nat) (s : K),
      2 ≤ n → q < n → s * s = 1 / 2 →
      qubitDensity n q (ghzAmp n s) = (1 / 2, 0, 0, 1 / 2) :=
  fun _ _ n q s hn hq hs => ghz_qubitDensity n q s hn hq hs

/-- C5 witness: the amended statement at `n = 2`, qubit 1,
`s = sqrt(1/2)` over the reals. -/
theorem C5_ghz_amended_witness :
    qubitDensity 2 1 (ghzAmp 2 (Real.sqrt 2⁻¹)) = (1/2, 0, 0, 1/2) :=
  C5_ghz_amended ℝ 2 1 (Real.sqrt 2⁻¹) (by omega) (by omega)
    (by rw [Real.mul_self_sqrt (by norm_num)]; norm_num)

/-- C9 counterexample: the test suite itself feeds `linearOverlay` a
2-wide foreground and a 4-wide background; no error of any kind is
raised — the kernel synchronously produces the output buffer the test
asserts, splicing the foreground cell-wise. -/
theorem C9_linearOverlay_counterexample :
    foreT.width ≠ backT.width
    ∧ readCells (linearOverlay 1 foreT backT) =
      [(0,-1,-2,-3),(900,901,902,903),(904,905,906,907),(908,909,910,911),
       (912,913,914,915),(-20,-21,-22,-23),(-24,-25,-26,-27),(-28,-29,-30,-31),
       (-32,-33,-34,-35),(-36,-37,-38,-39),(-40,-41,-42,-43),(-44,-45,-46,-47),
       (-48,-49,-50,-51),(-52,-53,-54,-55),(-56,-57,-58,-59),(-60,-61,-62,-63)] := by
  constructor <;> decide

/-- C9 (amended): `linearOverlay` performs no width-compatibility check;
for every offset and every pair of buffer shapes it totally produces an
output buffer of the background's size. -/
theorem C9_linearOverlay_total :
    ∀ (α : Type) (k : Nat) (fore back : Buf α),
      (linearOverlay k fore back).width = back.width
      ∧ (linearOverlay k fore back).height = back.height :=
  fun _ _ _ _ => ⟨rfl, rfl⟩

/-- C9 witness: the amended statement at the mismatched-width test
fixtures. -/
theorem C9_linearOverlay_total_witness :
    (linearOverlay 1 foreT backT).width = backT.width
    ∧ (linearOverlay 1 foreT backT).height = backT.height :=
  C9_linearOverlay_total _ 1 foreT backT

end Quirk
